import Mathlib

/-!
Verification of the PassGen password-candidate generation engine
(source: PassGen.py, classes PasswordGenerator / PassGenPro).

The Python source is shallowly embedded below.  Python `set`s of strings are
modelled as Lean lists in which only membership is meaningful; wherever the
source iterates over a set in unspecified order, the model fixes insertion
order (the spec itself notes the iteration order is an implementation
ambiguity, and none of the verified claims depend on it).  Python's `str`
operations are modelled over their ASCII behaviour, which covers every
character class the program manipulates.
-/

namespace PassGen

/-- Python `str.lower()` (ASCII). -/
def pyLower (s : String) : String := ⟨s.data.map Char.toLower⟩

/-- Python `str.upper()` (ASCII). -/
def pyUpper (s : String) : String := ⟨s.data.map Char.toUpper⟩

/-- Python `str.capitalize()`: first character upper-cased, the rest
lower-cased (ASCII). -/
def pyCapitalize (s : String) : String :=
  match s.data with
  | [] => ""
  | c :: cs => ⟨Char.toUpper c :: cs.map Char.toLower⟩

/-- Helper for `pyTitle`: the boolean records whether the previous character
was a letter (a cased character). -/
def pyTitleAux : List Char → Bool → List Char
  | [], _ => []
  | c :: cs, prevAlpha =>
    (if c.isAlpha then (if prevAlpha then c.toLower else c.toUpper) else c) ::
      pyTitleAux cs c.isAlpha

/-- Python `str.title()`: each letter starting a maximal letter-run is
upper-cased, other letters lower-cased (ASCII). -/
def pyTitle (s : String) : String := ⟨pyTitleAux s.data false⟩

/-- Python `s[::-1]`. -/
def pyReverse (s : String) : String := ⟨s.data.reverse⟩

/-- Python `s[-2:]`: the last two characters (the whole string when shorter). -/
def pyLastTwo (s : String) : String := ⟨s.data.drop (s.data.length - 2)⟩

/-- Python `s.replace(old, new)` for single-character `old`/`new`, the only
form the source uses. -/
def pyReplaceChar (s : String) (old new : Char) : String :=
  ⟨s.data.map (fun c => if c = old then new else c)⟩

/-- Boolean test that the first list is an initial segment of the second. -/
def strStarts : List Char → List Char → Bool
  | _ :: _, [] => false
  | [], _ => true
  | c :: cs, d :: ds => c == d && strStarts cs ds

/-- Boolean substring test on character lists (Python `needle in hay`). -/
def strHasSub : List Char → List Char → Bool
  | n, [] => strStarts n []
  | n, c :: hs => strStarts n (c :: hs) || strHasSub n hs

/-- Python `needle in hay` on strings. -/
def pyContains (needle hay : String) : Bool := strHasSub needle.data hay.data

/-- Python `hay.startswith(needle)` on strings. -/
def pyStartsWith (hay needle : String) : Bool := strStarts needle.data hay.data

/-- Lexicographic less-or-equal on character lists, matching Python's string
comparison by code point. -/
def charListLe : List Char → List Char → Bool
  | _ :: _, [] => false
  | [], _ => true
  | c :: cs, d :: ds => if c = d then charListLe cs ds else decide (c < d)

/-- Insert a string into a list modelling a Python `set.add`: a no-op when
the value is already present, otherwise appended (insertion order). -/
def sinsert (l : List String) (s : String) : List String :=
  if s ∈ l then l else l ++ [s]

/-- PasswordGenerator.COMMON_SUFFIXES. -/
def COMMON_SUFFIXES : List String :=
  ["1", "12", "123", "1234", "12345", "123456",
   "!", "@", "#", "$", "!!", "!@#", "123!",
   "00", "01", "11", "22", "69", "77", "88", "99",
   "2020", "2021", "2022", "2023", "2024", "2025",
   "_", ".", "-"]

/-- PasswordGenerator.COMMON_PREFIXES. -/
def COMMON_PREFIXES : List String :=
  ["admin", "user", "test", "demo", "guest",
   "root", "super", "master", "pass", "pwd"]

/-- PasswordGenerator.LEET_MAP, in Python dict insertion order. -/
def LEET_MAP : List (Char × List Char) :=
  [('a', ['@', '4']), ('e', ['3']), ('i', ['1', '!']),
   ('o', ['0']), ('s', ['5', '$']), ('t', ['7']),
   ('l', ['1']), ('g', ['9'])]

/-- Loop body of `PasswordGenerator._apply_leetspeak`: iterate over the leet
map; when the (lower-case) letter occurs in the word, expand the first
`maxVariants` held variants by both lower- and upper-case single-character
substitution, union the new variants in, and stop early once the collection
exceeds `maxVariants * 2`. -/
def leetLoop (word : String) (maxVariants : Nat) :
    List (Char × List Char) → List String → List String
  | [], variants => variants
  | (ch, reps) :: rest, variants =>
    if (pyLower word).data.contains ch then
      let newVariants := (variants.take maxVariants).foldl (fun acc v =>
        reps.foldl (fun acc2 rep =>
          sinsert (sinsert acc2 (pyReplaceChar v ch rep))
            (pyReplaceChar v ch.toUpper rep)) acc) []
      let variants2 := newVariants.foldl sinsert variants
      if maxVariants * 2 < variants2.length then variants2
      else leetLoop word maxVariants rest variants2
    else leetLoop word maxVariants rest variants

/-- PasswordGenerator._apply_leetspeak: run the leet loop seeded with the
word itself, then truncate to at most `maxVariants * 2` entries. -/
def apply_leetspeak (word : String) (maxVariants : Nat) : List String :=
  (leetLoop word maxVariants LEET_MAP [word]).take (maxVariants * 2)

/-- Python `str(currentYear + off)` for the offsets `range(-2, 3)` used by
`mutate_word` (`currentYear` models `datetime.now().year`). -/
def yearWindow (currentYear : Nat) : List String :=
  [toString (currentYear - 2), toString (currentYear - 1), toString currentYear,
   toString (currentYear + 1), toString (currentYear + 2)]

/-- PasswordGenerator.mutate_word.  `leet` models `config.get('leet', False)`
and `currentYear` models `datetime.now().year`.  The returned list models the
Python result set: the order lists the `mutations.add` calls in program
order, and only membership is meaningful. -/
def mutate_word (leet : Bool) (currentYear : Nat) (word : String)
    (level : Nat) : List String :=
  if word = "" then [word]
  else
    [word, pyLower word, pyUpper word, pyCapitalize word, pyTitle word]
    ++ ((if level = 1 then COMMON_SUFFIXES.take 10 else COMMON_SUFFIXES).flatMap
         (fun suffix => [word ++ suffix, pyCapitalize word ++ suffix]))
    ++ ((yearWindow currentYear).flatMap
         (fun year => [word ++ year, word ++ pyLastTwo year]))
    ++ (if 2 ≤ level then
          [pyReverse word]
          ++ (if word.length ≤ 8 then [word ++ word] else [])
          ++ (let noVowels : String :=
                ⟨word.data.filter (fun c => !("aeiou".data.contains c.toLower))⟩
              if noVowels ≠ "" ∧ 3 ≤ noVowels.length then [noVowels] else [])
          ++ (if leet then apply_leetspeak word 5 else [])
        else [])
    ++ (if 3 ≤ level then
          (COMMON_PREFIXES.flatMap (fun p =>
            if !(pyStartsWith (pyLower word) p) then [p ++ word, p ++ "_" ++ word]
            else []))
          ++ [pyReplaceChar (pyReplaceChar word 'a' '@') 's' '$',
              pyReplaceChar (pyReplaceChar word 'e' '3') 'o' '0']
        else [])

/-- Unordered pairs `itertools.combinations(l, 2)`, in iteration order. -/
def combos2 {α : Type} : List α → List (α × α)
  | [] => []
  | x :: xs => xs.map (fun y => (x, y)) ++ combos2 xs

/-- Unordered triples `itertools.combinations(l, 3)`, in iteration order. -/
def combos3 {α : Type} : List α → List (α × α × α)
  | [] => []
  | x :: xs => (combos2 xs).map (fun p => (x, p.1, p.2)) ++ combos3 xs

/-- PasswordGenerator.generate_combinations.  The returned list models the
Python result set (membership only); additions follow program order. -/
def generate_combinations (words : List String) (max_length : Nat) :
    List String :=
  let words30 := words.take 30
  let pairPart := (combos2 words30).flatMap (fun p =>
    if p.1.length + p.2.length ≤ max_length then
      [p.1 ++ p.2, p.2 ++ p.1, pyCapitalize p.1 ++ pyCapitalize p.2,
       p.1 ++ "_" ++ p.2, p.1 ++ "." ++ p.2, p.1 ++ "-" ++ p.2]
    else [])
  let triplePart :=
    if 3 ≤ words30.length then
      (combos3 (words30.take 10)).flatMap (fun t =>
        let combined := t.1 ++ t.2.1 ++ t.2.2
        if combined.length ≤ max_length then
          [combined, pyCapitalize t.1 ++ pyCapitalize t.2.1 ++ pyCapitalize t.2.2]
        else [])
    else []
  pairPart ++ triplePart

/-- Wildcard table of PasswordGenerator.generate_from_pattern (`mappings`);
`none` means the character is copied through as a literal. -/
def MAPPINGS : Char → Option (List Char)
  | '@' => some "abcdefghijklmnopqrstuvwxyz".data
  | ',' => some "ABCDEFGHIJKLMNOPQRSTUVWXYZ".data
  | '%' => some "0123456789".data
  | '^' => some "!@#$%^&*".data
  | '?' => some ("abcdefghijklmnopqrstuvwxyz".data ++ "ABCDEFGHIJKLMNOPQRSTUVWXYZ".data)
  | 'd' => some "0123456789".data
  | 'l' => some "abcdefghijklmnopqrstuvwxyz".data
  | 'u' => some "ABCDEFGHIJKLMNOPQRSTUVWXYZ".data
  | 's' => some "!@#$%^&*()_+-=".data
  | _ => none

/-- Recursive worker `_generate` of generate_from_pattern.  `res` models the
`results` set as an insertion-ordered duplicate-free list.  The `fuel`
argument makes the recursion structural; it is initialised to the pattern
length and decreases exactly once per consumed pattern character, so the
fuel-exhaustion branch is never taken. -/
def genRun (limit : Nat) (fuel : Nat) (pat : List Char) (cur : String)
    (res : List String) : List String :=
  if limit ≤ res.length then res
  else
    match pat with
    | [] => if cur ∈ res then res else res ++ [cur]
    | c :: rest =>
      match fuel with
      | 0 => res
      | f + 1 =>
        match MAPPINGS c with
        | some cls =>
          (if 5 < cls.length then cls.take 5 else cls).foldl
            (fun acc r => genRun limit f rest (cur.push r) acc) res
        | none => genRun limit f rest (cur.push c) res

/-- PasswordGenerator.generate_from_pattern. -/
def generate_from_pattern (pattern : String) (limit : Nat) : List String :=
  genRun limit pattern.data.length pattern.data "" []

/-- Configuration record modelling the `config` dict entries read by
PassGenPro.apply_filters (with the source's `config.get` defaults). -/
structure Config where
  min_length : Nat
  max_length : Nat
  require_upper : Bool
  require_lower : Bool
  require_digit : Bool
  require_special : Bool

/-- Special-character set hard-coded in PassGenPro.apply_filters. -/
def SPECIAL_CHARS : List Char := "!@#$%^&*()_+-=[]\x7b\x7d|;:,.<>?".data

/-- Predicate deciding whether apply_filters keeps `password`: the chain of
`continue` statements keeps a password exactly when the length bound holds
and every enabled requirement is met by some character. -/
def keepPassword (cfg : Config) (password : String) : Bool :=
  (cfg.min_length ≤ password.length && password.length ≤ cfg.max_length)
  && (!cfg.require_upper || password.data.any Char.isUpper)
  && (!cfg.require_lower || password.data.any Char.isLower)
  && (!cfg.require_digit || password.data.any Char.isDigit)
  && (!cfg.require_special || password.data.any (fun c => SPECIAL_CHARS.contains c))

/-- PassGenPro.apply_filters as a pure function from the working wordlist to
the filtered wordlist. -/
def apply_filters (cfg : Config) (wordlist : List String) : List String :=
  wordlist.filter (keepPassword cfg)

/-- Per-password score of PassGenPro.sort_by_likelihood; `base_words` models
`list(self.base_words)` in its (fixed) iteration order. -/
def scorePassword (base_words : List String) (password : String) : Nat :=
  (if 8 ≤ password.length ∧ password.length ≤ 12 then 20
   else if 6 ≤ password.length ∧ password.length ≤ 16 then 10 else 0)
  + (if ["2023", "2024", "2025"].any (fun y => pyContains y password) then 15 else 0)
  + (if ["admin", "user", "pass", "123", "test"].any
       (fun p => pyContains p (pyLower password)) then 10 else 0)
  + (if password.data.any Char.isUpper && password.data.any Char.isLower then 5 else 0)
  + (if (match password.data.getLast? with
         | some c => c.isDigit
         | none => false) then 8 else 0)
  + (if (base_words.take 20).any
       (fun w => 4 ≤ w.length && pyContains w (pyLower password)) then 25 else 0)

/-- Sort key order of sort_by_likelihood: Python sorts the `(score, pwd)`
pairs by the tuple `(-score, pwd)` ascending, i.e. score descending with
ties broken by ascending string comparison. -/
def keyLe (x y : Nat × String) : Prop :=
  y.1 < x.1 ∨ (x.1 = y.1 ∧ charListLe x.2.data y.2.data = true)

instance : DecidableRel keyLe := fun x y => by
  unfold keyLe; infer_instance

/-- PassGenPro.sort_by_likelihood: score every password, sort by descending
score with ascending lexicographic tie-break, and drop the scores.  The
Python `list.sort` is modelled by insertion sort; the key order is total,
transitive and (because the key contains the password itself) antisymmetric,
so every correct sort produces this exact sequence. -/
def sort_by_likelihood (base_words : List String) (wordlist : List String) :
    List String :=
  ((wordlist.map (fun p => (scorePassword base_words p, p))).insertionSort
      keyLe).map Prod.snd

/-- Ordering the spec asserts for sort_by_likelihood output: descending
score, ties broken by ascending lexicographic string order. -/
def likeLe (base_words : List String) (a b : String) : Prop :=
  scorePassword base_words b < scorePassword base_words a
  ∨ (scorePassword base_words a = scorePassword base_words b
     ∧ charListLe a.data b.data = true)

/-! Helper lemmas shared by the claim theorems. -/

theorem bool_imp_iff (b : Bool) (P : Prop) : (b = false ∨ P) ↔ (b = true → P) := by
  cases b <;> simp

theorem pyCapitalize_length (s : String) : (pyCapitalize s).length = s.length := by
  unfold pyCapitalize
  cases h : s.data with
  | nil => simp [String.length, h]
  | cons c cs => simp [String.length, h]

theorem keepPassword_iff (cfg : Config) (p : String) :
    keepPassword cfg p = true ↔
      (cfg.min_length ≤ p.length ∧ p.length ≤ cfg.max_length) ∧
      (cfg.require_upper = true → ∃ c ∈ p.data, c.isUpper = true) ∧
      (cfg.require_lower = true → ∃ c ∈ p.data, c.isLower = true) ∧
      (cfg.require_digit = true → ∃ c ∈ p.data, c.isDigit = true) ∧
      (cfg.require_special = true → ∃ c ∈ p.data, c ∈ SPECIAL_CHARS) := by
  simp only [keepPassword, Bool.and_eq_true, decide_eq_true_eq, Bool.or_eq_true,
    Bool.not_eq_true', List.any_eq_true, List.elem_iff, bool_imp_iff, and_assoc]

theorem keepPassword_false_of_min_gt_max (cfg : Config) (p : String)
    (h : cfg.max_length < cfg.min_length) : keepPassword cfg p = false := by
  unfold keepPassword
  have h1 : (decide (cfg.min_length ≤ p.length)
      && decide (p.length ≤ cfg.max_length)) = false := by
    rcases Nat.lt_or_ge p.length cfg.min_length with hlt | hge
    · simp [Nat.not_le.mpr hlt]
    · have hh : ¬ (p.length ≤ cfg.max_length) := by omega
      simp [hh]
  simp [h1]

theorem genRun_mem (limit : Nat) :
    ∀ (fuel : Nat) (pat : List Char) (cur : String) (res : List String) (s : String),
      s ∈ genRun limit fuel pat cur res → s ∈ res ∨ s.length = cur.length + pat.length := by
  intro fuel
  induction fuel with
  | zero =>
    intro pat cur res s h
    unfold genRun at h
    by_cases hl : limit ≤ res.length
    · rw [if_pos hl] at h; exact Or.inl h
    · rw [if_neg hl] at h
      cases pat with
      | nil =>
        by_cases hc : cur ∈ res
        · rw [if_pos hc] at h; exact Or.inl h
        · rw [if_neg hc] at h
          rcases List.mem_append.mp h with h | h
          · exact Or.inl h
          · simp only [List.mem_singleton] at h; subst h; right; simp
      | cons c rest => exact Or.inl h
  | succ f ih =>
    intro pat cur res s h
    unfold genRun at h
    by_cases hl : limit ≤ res.length
    · rw [if_pos hl] at h; exact Or.inl h
    · rw [if_neg hl] at h
      cases pat with
      | nil =>
        by_cases hc : cur ∈ res
        · rw [if_pos hc] at h; exact Or.inl h
        · rw [if_neg hc] at h
          rcases List.mem_append.mp h with h | h
          · exact Or.inl h
          · simp only [List.mem_singleton] at h; subst h; right; simp
      | cons c rest =>
        dsimp only at h
        cases hm : MAPPINGS c with
        | none =>
          rw [hm] at h
          rcases ih rest (cur.push c) res s h with h | h
          · exact Or.inl h
          · right; rw [h, String.length_push]; simp; omega
        | some cls =>
          rw [hm] at h
          have key : ∀ (lst : List Char) (res : List String),
              s ∈ lst.foldl (fun acc r => genRun limit f rest (cur.push r) acc) res →
              s ∈ res ∨ s.length = cur.length + (rest.length + 1) := by
            intro lst
            induction lst with
            | nil => intro res h; exact Or.inl h
            | cons r rs ih2 =>
              intro res h
              rw [List.foldl_cons] at h
              rcases ih2 _ h with h | h
              · rcases ih rest (cur.push r) res s h with h | h
                · exact Or.inl h
                · right; rw [h, String.length_push]; omega
              · exact Or.inr h
          rcases key _ _ h with h | h
          · exact Or.inl h
          · right; rw [h]; simp only [List.length_cons]

theorem charListLe_total : ∀ a b : List Char, charListLe a b = true ∨ charListLe b a = true := by
  intro a
  induction a with
  | nil => intro b; left; rfl
  | cons x xs ih =>
    intro b
    cases b with
    | nil => right; rfl
    | cons y ys =>
      by_cases hxy : x = y
      · subst hxy
        simpa [charListLe] using ih ys
      · rcases lt_or_gt_of_ne hxy with h | h
        · left; simp [charListLe, hxy, h]
        · right; simp [charListLe, Ne.symm hxy, h]

theorem charListLe_trans :
    ∀ a b c : List Char, charListLe a b = true → charListLe b c = true →
      charListLe a c = true := by
  intro a
  induction a with
  | nil => intro b c _ _; rfl
  | cons x xs ih =>
    intro b c hab hbc
    cases b with
    | nil => simp [charListLe] at hab
    | cons y ys =>
      cases c with
      | nil => simp [charListLe] at hbc
      | cons z zs =>
        simp only [charListLe] at hab hbc ⊢
        by_cases hxy : x = y <;> by_cases hyz : y = z
        · subst hxy; subst hyz
          simp only [if_pos rfl] at hab hbc ⊢
          exact ih ys zs hab hbc
        · subst hxy
          simp only [if_pos rfl] at hab
          simp only [if_neg hyz] at hbc
          simp only [if_neg hyz]
          exact hbc
        · subst hyz
          simp only [if_pos rfl] at hbc
          simp only [if_neg hxy] at hab
          simp only [if_neg hxy]
          exact hab
        · simp only [if_neg hxy] at hab
          simp only [if_neg hyz] at hbc
          have hxz : x < z := lt_trans (of_decide_eq_true hab) (of_decide_eq_true hbc)
          simp [ne_of_lt hxz, hxz]

theorem keyLe_total : ∀ x y : Nat × String, keyLe x y ∨ keyLe y x := by
  intro x y
  unfold keyLe
  rcases Nat.lt_trichotomy x.1 y.1 with h | h | h
  · right; left; exact h
  · rcases charListLe_total x.2.data y.2.data with hc | hc
    · left; right; exact ⟨h, hc⟩
    · right; right; exact ⟨h.symm, hc⟩
  · left; left; exact h

theorem keyLe_trans : ∀ x y z : Nat × String, keyLe x y → keyLe y z → keyLe x z := by
  intro x y z hxy hyz
  unfold keyLe at hxy hyz ⊢
  rcases hxy with h1 | ⟨h1, hc1⟩ <;> rcases hyz with h2 | ⟨h2, hc2⟩
  · left; omega
  · left; omega
  · left; omega
  · right; exact ⟨by omega, charListLe_trans _ _ _ hc1 hc2⟩

/-! Claim theorems. -/

/-- C1: for a fixed candidate set and a fixed seed-word iteration order,
sort_by_likelihood returns the candidates ordered by descending integer
score with ties broken by ascending lexicographic string order, and two
invocations on the same inputs yield identical output sequences (the
embedding is a pure function, so the third conjunct is the determinism
statement). -/
theorem sort_by_likelihood_spec (base_words wordlist : List String) :
    (sort_by_likelihood base_words wordlist).Sorted (likeLe base_words)
    ∧ (sort_by_likelihood base_words wordlist).Perm wordlist
    ∧ sort_by_likelihood base_words wordlist = sort_by_likelihood base_words wordlist := by
  unfold sort_by_likelihood
  set scored := wordlist.map (fun p => (scorePassword base_words p, p)) with hscored
  have hperm : (scored.insertionSort keyLe).Perm scored := List.perm_insertionSort keyLe scored
  refine ⟨?_, ?_, rfl⟩
  · have hsorted : (scored.insertionSort keyLe).Sorted keyLe :=
      @List.sorted_insertionSort _ keyLe _ ⟨keyLe_total⟩ ⟨keyLe_trans⟩ scored
    have hmem : ∀ x ∈ scored.insertionSort keyLe, x.1 = scorePassword base_words x.2 := by
      intro x hx
      have hx' : x ∈ scored := hperm.mem_iff.mp hx
      rw [hscored] at hx'
      rcases List.mem_map.mp hx' with ⟨p, _, rfl⟩
      rfl
    have hpair : (scored.insertionSort keyLe).Pairwise
        (fun a b => likeLe base_words a.2 b.2) := by
      refine List.Pairwise.imp_of_mem ?_ hsorted
      intro a b ha hb hab
      have ha' := hmem a ha
      have hb' := hmem b hb
      unfold keyLe at hab
      unfold likeLe
      rw [ha', hb'] at hab
      exact hab
    exact List.pairwise_map.mpr hpair
  · have h2 : scored.map Prod.snd = wordlist := by
      rw [hscored, List.map_map]
      exact List.map_id wordlist
    exact h2 ▸ (hperm.map Prod.snd)

theorem sort_by_likelihood_spec_witness :
    (sort_by_likelihood ["admin"] ["abc", "Admin2024!", "zz"]).Sorted (likeLe ["admin"])
    ∧ (sort_by_likelihood ["admin"] ["abc", "Admin2024!", "zz"]).Perm
        ["abc", "Admin2024!", "zz"]
    ∧ sort_by_likelihood ["admin"] ["abc", "Admin2024!", "zz"]
        = sort_by_likelihood ["admin"] ["abc", "Admin2024!", "zz"] :=
  sort_by_likelihood_spec ["admin"] ["abc", "Admin2024!", "zz"]

/-- C2 counterexample: the punctuation set hard-coded in apply_filters has
26 characters, not the 24 the claim states. -/
theorem special_chars_card :
    SPECIAL_CHARS.length = 26 ∧ 24 < SPECIAL_CHARS.length := by decide

/-- C2 (amended to the code's 26-character punctuation set): the filter
keeps a candidate iff its length lies within the configured bounds and, for
each enabled requirement flag, some character satisfies the corresponding
class predicate, all requirements conjunctive; and filtering the scenario
set with requireDigit and requireSpecial enabled keeps exactly
abc1! and ABC1!. -/
theorem apply_filters_keep_iff :
    (∀ (cfg : Config) (l : List String) (p : String),
        p ∈ apply_filters cfg l ↔
          p ∈ l ∧ (cfg.min_length ≤ p.length ∧ p.length ≤ cfg.max_length) ∧
          (cfg.require_upper = true → ∃ c ∈ p.data, c.isUpper = true) ∧
          (cfg.require_lower = true → ∃ c ∈ p.data, c.isLower = true) ∧
          (cfg.require_digit = true → ∃ c ∈ p.data, c.isDigit = true) ∧
          (cfg.require_special = true → ∃ c ∈ p.data, c ∈ SPECIAL_CHARS)) ∧
    SPECIAL_CHARS.length = 26 ∧
    apply_filters ⟨1, 128, false, false, true, true⟩ ["abc", "abc1", "abc1!", "ABC1!"]
      = ["abc1!", "ABC1!"] := by
  refine ⟨?_, by decide, by decide⟩
  intro cfg l p
  rw [apply_filters, List.mem_filter, keepPassword_iff]

theorem apply_filters_keep_iff_witness :
    "abc1!" ∈ apply_filters ⟨1, 128, false, false, true, true⟩ ["abc1!"] :=
  (apply_filters_keep_iff.1 ⟨1, 128, false, false, true, true⟩ ["abc1!"] "abc1!").mpr
    (by decide)

/-- C3: for every word, the leetspeak expansion with maxVariants = 5
returns at most 2 * maxVariants = 10 strings, regardless of word length or
how many leet-mapped letters occur: the result is truncated to
maxVariants * 2 entries. -/
theorem apply_leetspeak_bound (w : String) : (apply_leetspeak w 5).length ≤ 10 := by
  unfold apply_leetspeak
  exact List.length_take_le (5 * 2) (leetLoop w 5 LEET_MAP [w])

theorem apply_leetspeak_bound_witness : (apply_leetspeak "password" 5).length ≤ 10 :=
  apply_leetspeak_bound "password"

set_option maxRecDepth 20000

/-- C4 counterexample: expand("admin%%", 1000) produces 125 strings (more
than the claimed 25), among them "a0min00", which is not of the form
"admin" + d1 + d2: the letter d in "admin" is itself a digit wildcard. -/
theorem pattern_admin_counterexample :
    25 < (generate_from_pattern "admin%%" 1000).length ∧
    "a0min00" ∈ generate_from_pattern "admin%%" 1000 := by decide

/-- C4 (amended): expand("admin%%", 1000) produces exactly 125 strings,
each of the form "a" + d0 + "min" + d1 + d2 with d0, d1, d2 drawn from
the digits 0 to 4, because the d in "admin" is itself a digit wildcard and
each wildcard class with more than 5 members is truncated to its first 5
characters. -/
theorem pattern_admin_expansion :
    (generate_from_pattern "admin%%" 1000).length = 125 ∧
    ∀ s ∈ generate_from_pattern "admin%%" 1000,
      ∃ d0 ∈ "01234".data, ∃ d1 ∈ "01234".data, ∃ d2 ∈ "01234".data,
        s = ⟨['a', d0, 'm', 'i', 'n', d1, d2]⟩ := by decide

theorem pattern_admin_expansion_witness :
    ∃ d0 ∈ "01234".data, ∃ d1 ∈ "01234".data, ∃ d2 ∈ "01234".data,
      ("a0min00" : String) = ⟨['a', d0, 'm', 'i', 'n', d1, d2]⟩ :=
  pattern_admin_expansion.2 "a0min00" (by decide)

/-- C5: for every word w (and every leet setting and current year),
mutate(w, 1) is a subset of mutate(w, 3): higher mutation levels only add
extra categories of variants and never remove any level-1 output. -/
theorem mutate_word_mono (leet : Bool) (year : Nat) (w : String) :
    mutate_word leet year w 1 ⊆ mutate_word leet year w 3 := by
  intro x hx
  by_cases hw : w = ""
  · simpa [mutate_word, hw] using hx
  · simp [mutate_word, hw] at hx ⊢
    rcases hx with h | h | h | h | h | ⟨a, ha, h⟩ | h
    · exact .inl h
    · exact .inr <| .inl h
    · exact .inr <| .inr <| .inl h
    · exact .inr <| .inr <| .inr <| .inl h
    · exact .inr <| .inr <| .inr <| .inr <| .inl h
    · exact .inr <| .inr <| .inr <| .inr <| .inr <| .inl
        ⟨a, List.take_subset 10 COMMON_SUFFIXES ha, h⟩
    · exact .inr <| .inr <| .inr <| .inr <| .inr <| .inr <| .inl h

theorem mutate_word_mono_witness :
    "admin1" ∈ mutate_word false 2025 "admin" 3 :=
  mutate_word_mono false 2025 "admin" (by decide)

/-- C6: for every word w (and every leet setting and current year), the
level-1 mutation set contains the identity, lower-cased, upper-cased and
capitalized forms of w. -/
theorem mutate_word_basic (leet : Bool) (year : Nat) (w : String) :
    w ∈ mutate_word leet year w 1 ∧
    pyLower w ∈ mutate_word leet year w 1 ∧
    pyUpper w ∈ mutate_word leet year w 1 ∧
    pyCapitalize w ∈ mutate_word leet year w 1 := by
  by_cases hw : w = ""
  · subst hw
    refine ⟨?_, ?_, ?_, ?_⟩ <;> simp [mutate_word, pyLower, pyUpper, pyCapitalize]
  · refine ⟨?_, ?_, ?_, ?_⟩ <;> simp [mutate_word, hw]

theorem mutate_word_basic_witness :
    "admin" ∈ mutate_word false 2025 "admin" 1 ∧
    pyLower "admin" ∈ mutate_word false 2025 "admin" 1 ∧
    pyUpper "admin" ∈ mutate_word false 2025 "admin" 1 ∧
    pyCapitalize "admin" ∈ mutate_word false 2025 "admin" 1 :=
  mutate_word_basic false 2025 "admin"

/-- C7: filtering is idempotent: applying the filter stage twice with the
same configuration gives the same result as applying it once. -/
theorem apply_filters_idempotent (cfg : Config) (l : List String) :
    apply_filters cfg (apply_filters cfg l) = apply_filters cfg l := by
  simp [apply_filters, List.filter_filter]

theorem apply_filters_idempotent_witness :
    apply_filters ⟨1, 128, false, false, true, true⟩
        (apply_filters ⟨1, 128, false, false, true, true⟩ ["abc", "abc1!"])
      = apply_filters ⟨1, 128, false, false, true, true⟩ ["abc", "abc1!"] :=
  apply_filters_idempotent ⟨1, 128, false, false, true, true⟩ ["abc", "abc1!"]

/-- C8: when minLength > maxLength the filter stage returns the empty set
for every input candidate set; the function is total, so no error is
raised. -/
theorem apply_filters_empty (cfg : Config) (l : List String)
    (h : cfg.max_length < cfg.min_length) : apply_filters cfg l = [] := by
  unfold apply_filters
  rw [List.filter_eq_nil_iff]
  intro p _
  simp [keepPassword_false_of_min_gt_max cfg p h]

theorem apply_filters_empty_witness :
    apply_filters ⟨5, 3, false, false, false, false⟩ ["abc", "abcdef"] = [] :=
  apply_filters_empty ⟨5, 3, false, false, false, false⟩ ["abc", "abcdef"] (by decide)

/-- C9: every string produced by the pattern expander has length exactly
equal to the length of the input pattern: each pattern position, wildcard
or literal, contributes exactly one character. -/
theorem generate_from_pattern_length (pattern : String) (limit : Nat) (s : String)
    (h : s ∈ generate_from_pattern pattern limit) : s.length = pattern.length := by
  rcases genRun_mem limit pattern.data.length pattern.data "" [] s h with h | h
  · simp at h
  · simpa using h

theorem generate_from_pattern_length_witness :
    ("ab0" : String).length = ("ab%" : String).length :=
  generate_from_pattern_length "ab%" 10 "ab0" (by decide)

/-- C10: the combination generator checks the pairwise length bound on the
sum of the two word lengths before any separator is inserted, so every
emitted string has length at most maxLength + 1; and for two words whose
lengths sum exactly to maxLength the separator-joined variants have length
maxLength + 1, exceeding maxLength. -/
theorem generate_combinations_bound :
    (∀ (words : List String) (max_length : Nat) (s : String),
        s ∈ generate_combinations words max_length → s.length ≤ max_length + 1) ∧
    ("ab_cd" ∈ generate_combinations ["ab", "cd"] 4 ∧ ("ab_cd" : String).length = 4 + 1) := by
  constructor
  · intro words max_length s h
    simp [generate_combinations] at h
    have h1 : ("_" : String).length = 1 := rfl
    have h2 : ("." : String).length = 1 := rfl
    have h3 : ("-" : String).length = 1 := rfl
    rcases h with ⟨a, b, _, hlen, hs⟩ | ⟨_, a, b, c, _, hlen, hs⟩
    · rcases hs with rfl | rfl | rfl | rfl | rfl | rfl <;>
        simp [String.length_append, pyCapitalize_length, h1, h2, h3] <;> omega
    · rcases hs with rfl | rfl <;> simp [String.length_append, pyCapitalize_length] <;> omega
  · exact ⟨by decide, by decide⟩

theorem generate_combinations_bound_witness :
    ("ab_cd" : String).length ≤ 4 + 1 :=
  generate_combinations_bound.1 ["ab", "cd"] 4 "ab_cd" (by decide)

end PassGen
